import Mathlib

/-!
Shallow embedding of the genotype-data splitting utility
(split_breed_plink_reimplemented.py).

Files are modelled as lists of already-stripped text lines; a missing file
is `none`.  Tab-splitting (Python `line.split('\t')`) is modelled by
`splitTab`, a structurally recursive function with the same semantics as
CPython `str.split` with an explicit single-character separator.
Python dicts are insertion-ordered, so `split_table`, `map_data` and
`ped_data` are modelled as lists in insertion order.
-/

namespace BreedSplit

/-- Splits a character list at every tab, Python `split('\t')` style:
the empty list yields `[[]]`, separators at the ends yield empty fields. -/
def splitTabAux : List Char → List (List Char)
  | [] => [[]]
  | c :: rest =>
    let r := splitTabAux rest
    if c = '\t' then [] :: r
    else
      match r with
      | [] => [[c]]
      | h :: t => (c :: h) :: t

/-- Model of Python `line.split('\t')`. -/
def splitTab (s : String) : List String :=
  (splitTabAux s.data).map (fun cs => String.mk cs)

/-- Joins character lists with a tab between consecutive fields
(inverse of `splitTabAux`). -/
def joinTabChars : List (List Char) → List Char
  | [] => []
  | [x] => x
  | x :: y :: rest => x ++ '\t' :: joinTabChars (y :: rest)

/-- One row of the chip-position mapping table `split_plink.txt`
(Python `split_table[chip_id] = (sample_name, breed)`). -/
structure MappingEntry where
  chip_id : String
  sample_name : String
  breed : String
deriving DecidableEq, Repr

/-- One row of a `.map` file, stored in the tuple order used by
`load_map_file`: `(snp_id, chromosome, position, genetic_distance)`. -/
structure MapRecord where
  snp_id : String
  chromosome : String
  position : String
  genetic_distance : String
deriving DecidableEq, Repr

/-- One row of a `.ped` file, stored in the tuple order used by
`load_ped_file`: `(sample_id, family_id, father_id, mother_id, sex,
phenotype, genotypes)`. -/
structure PedRecord where
  sample_id : String
  family_id : String
  father_id : String
  mother_id : String
  sex : String
  phenotype : String
  genotypes : List String
deriving DecidableEq, Repr

/-- Defects reported by `load_split_table`. -/
inductive TableError where
  | MissingInput : TableError
  | EmptyInput : TableError
  | MalformedRow (lineNum fieldCount : Nat) : TableError
  | DuplicateKey (chip_id : String) : TableError
deriving DecidableEq, Repr

/-- Row-level defects reported by `load_map_file` and `load_ped_file`. -/
inductive RowError where
  | MalformedRow (lineNum fieldCount : Nat) : RowError
deriving DecidableEq, Repr

/-- Defects reported by `validate_data_integrity`. -/
inductive Defect where
  | DuplicateSampleId (id : String) : Defect
  | UnmappedChip (id : String) : Defect
  | RowCountMismatch : Defect
deriving DecidableEq, Repr

/-- Line-by-line worker of `load_split_table`: carries the 1-based line
number and the table accumulated so far.  A row with a field count other
than 3 records a `MalformedRow` and is skipped; a repeated chip id records
a `DuplicateKey` and is skipped; otherwise the row is appended to the
table.  Processing always continues to the end of the file. -/
def load_split_table_go : Nat → List MappingEntry → List String →
    List TableError × List MappingEntry
  | _, acc, [] => ([], acc)
  | n, acc, line :: rest =>
    let parts := splitTab line
    if parts.length ≠ 3 then
      let r := load_split_table_go (n+1) acc rest
      (TableError.MalformedRow n parts.length :: r.1, r.2)
    else
      let c := parts.headD ""
      if (acc.map MappingEntry.chip_id).contains c then
        let r := load_split_table_go (n+1) acc rest
        (TableError.DuplicateKey c :: r.1, r.2)
      else
        load_split_table_go (n+1)
          (acc ++ [⟨c, parts.getD 1 "", parts.getD 2 ""⟩]) rest

/-- Python `load_split_table`: `MissingInput` when the file does not
exist, `EmptyInput` when it has no content, otherwise row-by-row parsing
with accumulated defects. -/
def load_split_table (file : Option (List String)) :
    List TableError × List MappingEntry :=
  match file with
  | none => ([TableError.MissingInput], [])
  | some lines =>
    if lines.isEmpty then ([TableError.EmptyInput], [])
    else load_split_table_go 1 [] lines

/-- Builds a `MapRecord` from the four fields of a `.map` line, in the
order Python unpacks them: `chromosome, snp_id, genetic_distance,
position = parts`, stored as `(snp_id, chromosome, position,
genetic_distance)`. -/
def rowOfParts (parts : List String) : MapRecord :=
  ⟨parts.getD 1 "", parts.headD "", parts.getD 3 "", parts.getD 2 ""⟩

/-- Line-by-line worker of `load_map_file`: a row whose field count is
not 4 records a `MalformedRow` (with its 1-based line number) and is
skipped; parsing continues. -/
def load_map_go : Nat → List String → List RowError × List MapRecord
  | _, [] => ([], [])
  | n, line :: rest =>
    let parts := splitTab line
    let r := load_map_go (n+1) rest
    if parts.length ≠ 4 then
      (RowError.MalformedRow n parts.length :: r.1, r.2)
    else
      (r.1, rowOfParts parts :: r.2)

/-- Python `load_map_file` on the (stripped) lines of a `.map` file. -/
def load_map_file (lines : List String) : List RowError × List MapRecord :=
  load_map_go 1 lines

/-- Builds a `PedRecord` from the fields of a well-formed `.ped` line:
`family_id, sample_id, father_id, mother_id, sex, phenotype` are the
first six fields, the rest are genotypes. -/
def mkPedRecord (parts : List String) : PedRecord :=
  ⟨parts.getD 1 "", parts.headD "", parts.getD 2 "", parts.getD 3 "",
   parts.getD 4 "", parts.getD 5 "", parts.drop 6⟩

/-- Line-by-line worker of `load_ped_file`: a row whose field count
differs from the expected column count records a `MalformedRow` (with its
1-based line number) and is excluded; parsing continues. -/
def load_ped_go (expected : Nat) : Nat → List String →
    List RowError × List PedRecord
  | _, [] => ([], [])
  | n, line :: rest =>
    let parts := splitTab line
    let r := load_ped_go expected (n+1) rest
    if parts.length ≠ expected then
      (RowError.MalformedRow n parts.length :: r.1, r.2)
    else
      (r.1, mkPedRecord parts :: r.2)

/-- Python `load_ped_file`: the expected column count is
`6 + 2 * expected_snp_count`. -/
def load_ped_file (lines : List String) (expected_snp_count : Nat) :
    List RowError × List PedRecord :=
  load_ped_go (6 + 2 * expected_snp_count) 1 lines

/-- Python `validate_map_consistency` over the parsed `.map` tables (in
insertion order).  With at most one table it trivially passes; otherwise
the distinct row counts must be unique and every table's SNP-id sequence
must equal the first one's. -/
def validate_map_consistency : List (List MapRecord) → Bool
  | [] => true
  | [_] => true
  | first :: rest =>
    if 1 < (((first :: rest).map List.length).dedup).length then false
    else rest.all (fun d =>
      decide (d.map MapRecord.snp_id = first.map MapRecord.snp_id))

/-- All sample records of the batch, in the order Python iterates
`self.ped_data.items()` and their rows. -/
def allPed (peds : List (List PedRecord)) : List PedRecord :=
  peds.flatMap id

/-- The distinct sample ids of the batch (Python builds a `set`; only
membership and cardinality of the set are observable). -/
def allSampleIds (peds : List (List PedRecord)) : List String :=
  ((allPed peds).map PedRecord.sample_id).dedup

/-- Python `validate_data_integrity`, returning the list of recorded
defects instead of printing them.  The duplicate-id scan counts
occurrences inside the id *set* (as the source does), the unmapped-chip
scan lists every mapping-table chip id with no sample record, and the
final check compares the table size with the distinct-sample-id count. -/
def validate_data_integrity (table : List MappingEntry)
    (peds : List (List PedRecord)) : List Defect :=
  let ids := allSampleIds peds
  let dups := (ids.filter (fun s => 1 < ids.count s)).map Defect.DuplicateSampleId
  let missing := (table.map MappingEntry.chip_id).filter (fun c => ¬ c ∈ ids)
  let unmapped := missing.map Defect.UnmappedChip
  let mismatch := if table.length ≠ ids.length then [Defect.RowCountMismatch] else []
  dups ++ unmapped ++ mismatch

/-- The distinct breeds in mapping-table order (Python `defaultdict`
keys appear in first-insertion order). -/
def breedsOf (table : List MappingEntry) : List String :=
  (table.map MappingEntry.breed).dedup

/-- The entries of one breed group, in mapping-table order. -/
def groupEntries (table : List MappingEntry) (b : String) : List MappingEntry :=
  table.filter (fun e => e.breed == b)

/-- The nested first-match search of `generate_breed_files`: scan the
ped tables in order, inside each the rows in order, and stop at the
first record whose `sample_id` equals the chip id. -/
def findPed (peds : List (List PedRecord)) (chip : String) : Option PedRecord :=
  (allPed peds).find? (fun r => r.sample_id == chip)

/-- The collection loop of `generate_breed_files`: for each group entry,
if a sample record is found it is appended to the breed's ped rows and
the line `chip_id ++ tab ++ sample_name` is appended to the id-mapping
lines; otherwise the entry contributes to neither. -/
def collectBreed (peds : List (List PedRecord)) :
    List MappingEntry → List PedRecord × List String
  | [] => ([], [])
  | e :: rest =>
    let r := collectBreed peds rest
    match findPed peds e.chip_id with
    | some p => (p :: r.1, (e.chip_id ++ "\t" ++ e.sample_name) :: r.2)
    | none => r

/-- Serialisation of one `.map` row as written by
`generate_breed_files`: chromosome, snp id, genetic distance, position,
tab-separated. -/
def emitMapLine (r : MapRecord) : String :=
  r.chromosome ++ "\t" ++ r.snp_id ++ "\t" ++ r.genetic_distance ++ "\t" ++ r.position

/-- The lines of an emitted `.map` file. -/
def mapFileLines (m : List MapRecord) : List String :=
  m.map emitMapLine

/-- The files generated for one breed: the emitted `.map` lines (from
the first parsed map table, the canonical template), the breed's ped
rows and its id-mapping lines. -/
structure BreedOutput where
  breed : String
  mapLines : List String
  pedRows : List PedRecord
  idmapLines : List String
deriving DecidableEq, Repr

/-- Python `generate_breed_files` for one breed. -/
def generate_breed_files (maps : List (List MapRecord))
    (peds : List (List PedRecord)) (b : String) (entries : List MappingEntry) :
    BreedOutput :=
  let r := collectBreed peds entries
  ⟨b, mapFileLines (maps.headD []), r.1, r.2⟩

/-- Python `split_by_breed`: returns immediately (no output) when the
error flag is set, otherwise groups the mapping table by breed and
generates one `BreedOutput` per breed, breeds in first-insertion
order. -/
def split_by_breed (errorStatus : Bool) (table : List MappingEntry)
    (maps : List (List MapRecord)) (peds : List (List PedRecord)) :
    Option (List BreedOutput) :=
  if errorStatus then none
  else some ((breedsOf table).map (fun b =>
    generate_breed_files maps peds b (groupEntries table b)))

/-- Step 5 of `run` for one map/ped pair: the map file is parsed; only
when it yields at least one row is it stored and the ped file parsed;
a ped table is stored only when non-empty. -/
def processPair (mapLines pedLines : List String) :
    List RowError × Option (List MapRecord) × Option (List PedRecord) :=
  let m := load_map_file mapLines
  if m.2.isEmpty then (m.1, none, none)
  else
    let p := load_ped_file pedLines m.2.length
    (m.1 ++ p.1, some m.2, if p.2.isEmpty then none else some p.2)

/-- Step 5 of `run` over all discovered pairs, collecting the recorded
row defects and the stored map and ped tables in order. -/
def load_all_pairs : List (List String × List String) →
    List RowError × List (List MapRecord) × List (List PedRecord)
  | [] => ([], [], [])
  | (mL, pL) :: rest =>
    let one := processPair mL pL
    let r := load_all_pairs rest
    (one.1 ++ r.1, one.2.1.toList ++ r.2.1, one.2.2.toList ++ r.2.2)

/-! ## Helper lemmas -/

lemma count_filter_eq {α : Type} [DecidableEq α] (l : List α) (p : α → Bool) (a : α) :
    (l.filter p).count a = if p a then l.count a else 0 := by
  cases hp : p a with
  | true =>
    rw [if_pos rfl]
    exact List.count_filter hp
  | false =>
    rw [if_neg (by simp), List.count_eq_zero]
    intro hmem
    rw [List.mem_filter] at hmem
    rw [hmem.2] at hp
    exact Bool.noConfusion hp

lemma processPair_of_no_rows {mL : List String} (pL : List String)
    (h : (load_map_file mL).2 = []) :
    processPair mL pL = ((load_map_file mL).1, none, none) := by
  simp [processPair, h]

lemma load_all_pairs_skip (l1 l2 : List (List String × List String))
    (mL pL : List String) (h : (load_map_file mL).2 = []) :
    (load_all_pairs (l1 ++ (mL, pL) :: l2)).2 = (load_all_pairs (l1 ++ l2)).2 := by
  induction l1 with
  | nil =>
    simp only [List.nil_append, load_all_pairs, processPair_of_no_rows pL h]
    simp
  | cons a t ih =>
    obtain ⟨aM, aP⟩ := a
    simp only [List.cons_append, load_all_pairs]
    simp only [Prod.ext_iff] at ih ⊢
    exact ⟨congrArg (fun x => (processPair aM aP).2.1.toList ++ x) ih.1,
           congrArg (fun x => (processPair aM aP).2.2.toList ++ x) ih.2⟩

lemma contains_iff_mem {l : List String} {c : String} :
    l.contains c = true ↔ c ∈ l := by
  simp [List.contains_iff_exists_mem_beq]

/-- The key field of a mapping-table line: the first field when the line
has exactly 3 tab-separated fields, nothing otherwise. -/
def rowKey (line : String) : Option String :=
  let parts := splitTab line
  if parts.length = 3 then some (parts.headD "") else none

lemma split_go_malformed (lines : List String) :
    ∀ (n : Nat) (acc : List MappingEntry) (i : Nat) (h : i < lines.length),
    (splitTab lines[i]).length ≠ 3 →
    TableError.MalformedRow (n + i) (splitTab lines[i]).length ∈
      (load_split_table_go n acc lines).1 := by
  induction lines with
  | nil =>
    intro n acc i h
    exact absurd h (by simp)
  | cons line rest ih =>
    intro n acc i h hbad
    cases i with
    | zero =>
      simp only [List.getElem_cons_zero] at hbad ⊢
      simp only [load_split_table_go]
      rw [if_pos hbad]
      simp
    | succ j =>
      simp only [List.getElem_cons_succ] at hbad ⊢
      have hj : j < rest.length := by
        simpa using Nat.lt_of_succ_lt_succ h
      have harith : n + (j + 1) = (n + 1) + j := by omega
      rw [harith]
      simp only [load_split_table_go]
      by_cases h3 : (splitTab line).length ≠ 3
      · rw [if_pos h3]
        exact List.mem_cons_of_mem _ (ih (n + 1) acc j hj hbad)
      · rw [if_neg h3]
        by_cases hdup :
            (acc.map MappingEntry.chip_id).contains ((splitTab line).headD "") = true
        · rw [if_pos hdup]
          exact List.mem_cons_of_mem _ (ih (n + 1) acc j hj hbad)
        · rw [if_neg hdup]
          exact ih (n + 1) _ j hj hbad

lemma split_go_dup (lines : List String) :
    ∀ (n : Nat) (acc : List MappingEntry) (c : String),
    (((acc.map MappingEntry.chip_id).contains c = true ∧
        ∃ l ∈ lines, rowKey l = some c) ∨
      2 ≤ lines.countP (fun l => rowKey l == some c)) →
    TableError.DuplicateKey c ∈ (load_split_table_go n acc lines).1 := by
  induction lines with
  | nil =>
    intro n acc c hyp
    rcases hyp with ⟨-, l, hl, -⟩ | hcnt
    · exact absurd hl (List.not_mem_nil l)
    · simp [List.countP_nil] at hcnt
  | cons line rest ih =>
    intro n acc c hyp
    simp only [load_split_table_go]
    by_cases h3 : (splitTab line).length ≠ 3
    · have hkey : rowKey line = none := by
        simp only [rowKey]
        rw [if_neg (by omega)]
      rw [if_pos h3]
      refine List.mem_cons_of_mem _ (ih (n + 1) acc c ?_)
      rcases hyp with ⟨hc, l, hl, hlk⟩ | hcnt
      · rcases List.mem_cons.mp hl with rfl | hl'
        · rw [hkey] at hlk
          exact Option.noConfusion hlk
        · exact Or.inl ⟨hc, l, hl', hlk⟩
      · rw [List.countP_cons] at hcnt
        have hfalse : (rowKey line == some c) = false := by
          rw [hkey]
          rfl
        rw [hfalse] at hcnt
        simp at hcnt
        exact Or.inr (by omega)
    · have hlen : (splitTab line).length = 3 := by omega
      have hkey : rowKey line = some ((splitTab line).headD "") := by
        simp only [rowKey]
        rw [if_pos hlen]
      rw [if_neg h3]
      by_cases hdup :
          (acc.map MappingEntry.chip_id).contains ((splitTab line).headD "") = true
      · rw [if_pos hdup]
        by_cases hkc : (splitTab line).headD "" = c
        · rw [hkc]
          exact List.mem_cons_self _ _
        · refine List.mem_cons_of_mem _ (ih (n + 1) acc c ?_)
          rcases hyp with ⟨hc, l, hl, hlk⟩ | hcnt
          · rcases List.mem_cons.mp hl with rfl | hl'
            · rw [hkey] at hlk
              exact absurd (Option.some.inj hlk) hkc
            · exact Or.inl ⟨hc, l, hl', hlk⟩
          · rw [List.countP_cons] at hcnt
            have hfalse : (rowKey line == some c) = false := by
              rw [hkey]
              exact beq_eq_false_iff_ne.mpr (fun h => hkc (Option.some.inj h))
            rw [hfalse] at hcnt
            simp at hcnt
            exact Or.inr (by omega)
      · rw [if_neg hdup]
        apply ih (n + 1) _ c
        rcases hyp with ⟨hc, l, hl, hlk⟩ | hcnt
        · rcases List.mem_cons.mp hl with rfl | hl'
          · rw [hkey] at hlk
            rw [Option.some.inj hlk] at hdup
            exact absurd hc hdup
          · refine Or.inl ⟨?_, l, hl', hlk⟩
            rw [contains_iff_mem] at hc ⊢
            simp only [List.map_append, List.mem_append]
            exact Or.inl hc
        · rw [List.countP_cons] at hcnt
          by_cases hkc : (splitTab line).headD "" = c
          · have htrue : (rowKey line == some c) = true := by
              rw [hkey, hkc]
              exact beq_self_eq_true _
            rw [htrue, if_pos rfl] at hcnt
            have hpos : 0 < rest.countP (fun l => rowKey l == some c) := by omega
            rcases List.countP_pos_iff.mp hpos with ⟨l, hl, hlk⟩
            refine Or.inl ⟨?_, l, hl, eq_of_beq hlk⟩
            rw [contains_iff_mem]
            simp only [List.map_append, List.mem_append, List.map_cons, List.map_nil,
              List.mem_singleton]
            exact Or.inr hkc.symm
          · have hfalse : (rowKey line == some c) = false := by
              rw [hkey]
              exact beq_eq_false_iff_ne.mpr (fun h => hkc (Option.some.inj h))
            rw [hfalse] at hcnt
            simp at hcnt
            exact Or.inr (by omega)

/-! ## Claim theorems -/

/-- Claim C1 (code bug): the duplicate-sample-id check in
`validate_data_integrity` counts occurrences inside the *set* of sample
ids, so every count is 1 and a `DuplicateSampleId` defect can never be
recorded; on a batch with two records sharing id "S1" no defect is
recorded and partitioning executes. -/
theorem duplicate_sample_check_dead :
    (∀ (s : String) (table : List MappingEntry) (peds : List (List PedRecord)),
      Defect.DuplicateSampleId s ∉ validate_data_integrity table peds) ∧
    validate_data_integrity [⟨"S1", "Alice", "B"⟩]
      [[⟨"S1", "F1", "0", "0", "1", "0", ["A", "A"]⟩,
        ⟨"S1", "F2", "0", "0", "2", "0", ["G", "G"]⟩]] = [] ∧
    split_by_breed false [⟨"S1", "Alice", "B"⟩] [[⟨"M1", "1", "100", "0"⟩]]
      [[⟨"S1", "F1", "0", "0", "1", "0", ["A", "A"]⟩,
        ⟨"S1", "F2", "0", "0", "2", "0", ["G", "G"]⟩]] ≠ none := by
  refine ⟨?_, by decide, by decide⟩
  intro s table peds hmem
  simp only [validate_data_integrity, List.mem_append] at hmem
  rcases hmem with (hdup | hunm) | hmis
  · rcases List.mem_map.mp hdup with ⟨a, ha, he⟩
    rcases List.mem_filter.mp ha with ⟨-, hcnt⟩
    have hnd : (allSampleIds peds).Nodup := List.nodup_dedup _
    have hle := List.nodup_iff_count_le_one.mp hnd a
    have hgt : 1 < (allSampleIds peds).count a := of_decide_eq_true hcnt
    omega
  · rcases List.mem_map.mp hunm with ⟨a, -, he⟩
    exact Defect.noConfusion he
  · by_cases hc : table.length ≠ (allSampleIds peds).length
    · rw [if_pos hc] at hmis
      exact Defect.noConfusion (List.mem_singleton.mp hmis)
    · rw [if_neg hc] at hmis
      exact List.not_mem_nil _ hmis

/-- Claim C4: two parsed marker files with equal row counts but
different SNP-id sequences fail `validate_map_consistency` (the
`InconsistentSchema` condition), and with the error flag set
`split_by_breed` produces no output at all. -/
theorem map_consistency_transposition_gate (m1 m2 : List MapRecord)
    (hlen : m1.length = m2.length)
    (hne : m1.map MapRecord.snp_id ≠ m2.map MapRecord.snp_id) :
    validate_map_consistency [m1, m2] = false ∧
    ∀ (table : List MappingEntry) (maps : List (List MapRecord))
      (peds : List (List PedRecord)),
      split_by_breed true table maps peds = none := by
  constructor
  · have hne2 : ¬(m2.map MapRecord.snp_id = m1.map MapRecord.snp_id) :=
      fun h => hne h.symm
    simp only [validate_map_consistency, List.map_cons, List.map_nil, hlen]
    rw [List.dedup_cons_of_mem (List.mem_singleton.mpr rfl)]
    simp [hne2]
  · intro table maps peds
    rfl

def m4a : List MapRecord :=
  [⟨"M1", "1", "100", "0"⟩, ⟨"M2", "1", "200", "0"⟩]

def m4b : List MapRecord :=
  [⟨"M2", "1", "200", "0"⟩, ⟨"M1", "1", "100", "0"⟩]

theorem map_consistency_transposition_gate_witness :
    (m4a.length = m4b.length ∧
      m4a.map MapRecord.snp_id ≠ m4b.map MapRecord.snp_id) ∧
    validate_map_consistency [m4a, m4b] = false ∧
    split_by_breed true [] [] [] = none :=
  ⟨⟨by decide, by decide⟩,
   (map_consistency_transposition_gate m4a m4b (by decide) (by decide)).1,
   (map_consistency_transposition_gate m4a m4b (by decide) (by decide)).2 [] [] []⟩

/-- Claim C9 counterexample: a marker file whose single line has three
tab-separated fields yields zero parsed rows, yet a `MalformedRow`
defect IS recorded for the pair — refuting "no defect is recorded" for
every pair with zero parseable rows. -/
theorem zero_parseable_map_defect_cex :
    (load_map_file ["a\tb\tc"]).2 = [] ∧
    (processPair ["a\tb\tc"] []).1 ≠ [] := by decide

/-- Claim C9 (amended): for a pair whose marker file has no lines, no
defect is recorded and the sample file is never parsed; more generally,
whenever the marker file yields zero parsed rows the sample file is
never parsed (only the marker file's own row defects are recorded) and
the pair contributes nothing to the batch's stored tables. -/
theorem empty_map_pair_silently_skipped :
    (∀ pedLines : List String, processPair [] pedLines = ([], none, none)) ∧
    (∀ mapLines pedLines : List String, (load_map_file mapLines).2 = [] →
      processPair mapLines pedLines = ((load_map_file mapLines).1, none, none)) ∧
    (∀ (l1 l2 : List (List String × List String)) (mL pL : List String),
      (load_map_file mL).2 = [] →
      (load_all_pairs (l1 ++ (mL, pL) :: l2)).2 = (load_all_pairs (l1 ++ l2)).2) :=
  ⟨fun _ => rfl,
   fun _ pL h => processPair_of_no_rows pL h,
   fun l1 l2 _ pL h => load_all_pairs_skip l1 l2 _ pL h⟩

/-- Claim C5: loading the mapping table reports `MissingInput` for an
absent file, `EmptyInput` for a zero-byte file, one `MalformedRow` (with
its 1-based line number) for every line whose tab-separated field count
is not 3, and a `DuplicateKey` for a repeated chip id; row defects are
accumulated over the whole file rather than stopping at the first. -/
theorem load_split_table_accumulates :
    load_split_table none = ([TableError.MissingInput], []) ∧
    load_split_table (some []) = ([TableError.EmptyInput], []) ∧
    (∀ (lines : List String) (i : Nat) (h : i < lines.length),
      (splitTab lines[i]).length ≠ 3 →
      TableError.MalformedRow (i + 1) (splitTab lines[i]).length ∈
        (load_split_table (some lines)).1) ∧
    (∀ (lines : List String) (c : String),
      2 ≤ lines.countP (fun l => rowKey l == some c) →
      TableError.DuplicateKey c ∈ (load_split_table (some lines)).1) := by
  refine ⟨rfl, rfl, ?_, ?_⟩
  · intro lines i h hbad
    cases lines with
    | nil => exact absurd h (by simp)
    | cons line rest =>
      have := split_go_malformed (line :: rest) 1 [] i h hbad
      rw [Nat.add_comm 1 i] at this
      exact this
  · intro lines c hcnt
    cases lines with
    | nil => simp [List.countP_nil] at hcnt
    | cons line rest =>
      exact split_go_dup (line :: rest) 1 [] c (Or.inr hcnt)

def lines5 : List String := ["a\tb", "x\ty\tz", "x\tu\tv"]

theorem load_split_table_accumulates_witness :
    ((splitTab lines5[0]).length ≠ 3 ∧
      TableError.MalformedRow (0 + 1) (splitTab lines5[0]).length ∈
        (load_split_table (some lines5)).1) ∧
    (2 ≤ lines5.countP (fun l => rowKey l == some "x") ∧
      TableError.DuplicateKey "x" ∈ (load_split_table (some lines5)).1) :=
  ⟨⟨by decide, load_split_table_accumulates.2.2.1 lines5 0 (by decide) (by decide)⟩,
   ⟨by decide, load_split_table_accumulates.2.2.2 lines5 "x" (by decide)⟩⟩

lemma ped_go_records (expected : Nat) (lines : List String) :
    ∀ n : Nat, (load_ped_go expected n lines).2 =
      (lines.filter (fun l => (splitTab l).length == expected)).map (fun l => mkPedRecord (splitTab l)) := by
  induction lines with
  | nil => intro n; rfl
  | cons line rest ih =>
    intro n
    simp only [load_ped_go]
    by_cases hb : (splitTab line).length ≠ expected
    · rw [if_pos hb]
      have hf : ((splitTab line).length == expected) = false :=
        beq_eq_false_iff_ne.mpr hb
      simp only [List.filter_cons, hf, Bool.false_eq_true, if_false]
      exact ih (n + 1)
    · rw [if_neg hb]
      have ht : ((splitTab line).length == expected) = true :=
        beq_iff_eq.mpr (by omega)
      simp only [List.filter_cons, ht, if_true, List.map_cons]
      rw [ih (n + 1)]

lemma ped_go_malformed (expected : Nat) (lines : List String) :
    ∀ (n : Nat) (i : Nat) (h : i < lines.length),
    (splitTab lines[i]).length ≠ expected →
    RowError.MalformedRow (n + i) (splitTab lines[i]).length ∈
      (load_ped_go expected n lines).1 := by
  induction lines with
  | nil =>
    intro n i h
    exact absurd h (by simp)
  | cons line rest ih =>
    intro n i h hbad
    cases i with
    | zero =>
      simp only [List.getElem_cons_zero] at hbad ⊢
      simp only [load_ped_go]
      rw [if_pos hbad]
      simp
    | succ j =>
      simp only [List.getElem_cons_succ] at hbad ⊢
      have hj : j < rest.length := by
        simpa using Nat.lt_of_succ_lt_succ h
      have harith : n + (j + 1) = (n + 1) + j := by omega
      rw [harith]
      simp only [load_ped_go]
      by_cases hb : (splitTab line).length ≠ expected
      · rw [if_pos hb]
        exact List.mem_cons_of_mem _ (ih (n + 1) j hj hbad)
      · rw [if_neg hb]
        exact ih (n + 1) j hj hbad

/-- Claim C8: in `load_ped_file` with expected marker count `n`, every
line whose tab-separated field count differs from `6 + 2 * n` yields a
`MalformedRow` defect with its 1-based line number; the in-memory sample
data is exactly the well-formed lines in order (offending rows excluded,
later rows still parsed). -/
theorem load_ped_malformed_rows (lines : List String) (cnt : Nat) :
    (load_ped_file lines cnt).2 =
      (lines.filter (fun l => (splitTab l).length == 6 + 2 * cnt)).map (fun l => mkPedRecord (splitTab l)) ∧
    (∀ (i : Nat) (h : i < lines.length),
      (splitTab lines[i]).length ≠ 6 + 2 * cnt →
      RowError.MalformedRow (i + 1) (splitTab lines[i]).length ∈
        (load_ped_file lines cnt).1) := by
  constructor
  · exact ped_go_records (6 + 2 * cnt) lines 1
  · intro i h hbad
    have := ped_go_malformed (6 + 2 * cnt) lines 1 i h hbad
    rw [Nat.add_comm 1 i] at this
    exact this

def lines8 : List String :=
  ["F1\tS1\t0\t0\t1\t0\tA\tA", "bad\trow", "F2\tS2\t0\t0\t2\t0\tG\tG"]

theorem load_ped_malformed_rows_witness :
    (load_ped_file lines8 1).2 =
      (lines8.filter (fun l => (splitTab l).length == 6 + 2 * 1)).map (fun l => mkPedRecord (splitTab l)) ∧
    ((splitTab lines8[1]).length ≠ 6 + 2 * 1 ∧
      RowError.MalformedRow (1 + 1) (splitTab lines8[1]).length ∈
        (load_ped_file lines8 1).1) :=
  ⟨(load_ped_malformed_rows lines8 1).1,
   ⟨by decide, (load_ped_malformed_rows lines8 1).2 1 (by decide) (by decide)⟩⟩

theorem empty_map_pair_silently_skipped_witness :
    processPair [] ["x"] = ([], none, none) ∧
    ((load_map_file ["a\tb\tc"]).2 = [] ∧
      processPair ["a\tb\tc"] ["x"] =
        ((load_map_file ["a\tb\tc"]).1, none, none)) ∧
    (load_all_pairs [(["a\tb\tc"], ["x"])]).2 = (load_all_pairs []).2 :=
  ⟨empty_map_pair_silently_skipped.1 ["x"],
   ⟨by decide,
    empty_map_pair_silently_skipped.2.1 ["a\tb\tc"] ["x"] (by decide)⟩,
   empty_map_pair_silently_skipped.2.2 [] [] ["a\tb\tc"] ["x"] (by decide)⟩

/-- Claim C6: under the loader invariant that mapping-table chip ids are
distinct, every chip id matching no sample record yields exactly one
`UnmappedChip` defect, and full coverage yields none. -/
theorem unmapped_chip_defects (table : List MappingEntry)
    (peds : List (List PedRecord))
    (hnd : (table.map MappingEntry.chip_id).Nodup) :
    (∀ c, c ∈ table.map MappingEntry.chip_id →
      (∀ r ∈ allPed peds, r.sample_id ≠ c) →
      (validate_data_integrity table peds).count (Defect.UnmappedChip c) = 1) ∧
    ((∀ e ∈ table, ∃ r ∈ allPed peds, r.sample_id = e.chip_id) →
      ∀ c, Defect.UnmappedChip c ∉ validate_data_integrity table peds) := by
  constructor
  · intro c hc hnone
    have hnotin : c ∉ allSampleIds peds := by
      intro hm
      rw [allSampleIds, List.mem_dedup] at hm
      rcases List.mem_map.mp hm with ⟨r, hr, heq⟩
      exact hnone r hr heq
    simp only [validate_data_integrity]
    rw [List.count_append, List.count_append]
    have hdups :
        (((allSampleIds peds).filter
            (fun s => 1 < (allSampleIds peds).count s)).map
          Defect.DuplicateSampleId).count (Defect.UnmappedChip c) = 0 := by
      rw [List.count_eq_zero]
      intro hmem
      rcases List.mem_map.mp hmem with ⟨a, -, he⟩
      exact Defect.noConfusion he
    have hmis :
        (if table.length ≠ (allSampleIds peds).length
          then [Defect.RowCountMismatch] else []).count (Defect.UnmappedChip c) = 0 := by
      by_cases hcond : table.length ≠ (allSampleIds peds).length
      · rw [if_pos hcond, List.count_eq_zero]
        intro hmem
        exact Defect.noConfusion (List.mem_singleton.mp hmem)
      · rw [if_neg hcond]
        rfl
    rw [hdups, hmis]
    have hinj : Function.Injective Defect.UnmappedChip := by
      intro a b h
      injection h
    rw [List.count_map_of_injective _ Defect.UnmappedChip hinj c]
    rw [count_filter_eq]
    rw [if_pos (by simpa using hnotin)]
    rw [List.count_eq_one_of_mem hnd hc]
  · intro hcov c hmem
    simp only [validate_data_integrity, List.mem_append] at hmem
    rcases hmem with (hdup | hunm) | hmis
    · rcases List.mem_map.mp hdup with ⟨a, -, he⟩
      exact Defect.noConfusion he
    · rcases List.mem_map.mp hunm with ⟨a, ha, he⟩
      rcases List.mem_filter.mp ha with ⟨hmema, hdec⟩
      rcases List.mem_map.mp hmema with ⟨e, hetab, heeq⟩
      rcases hcov e hetab with ⟨r, hr, hreq⟩
      have : a ∈ allSampleIds peds := by
        rw [allSampleIds, List.mem_dedup]
        exact List.mem_map.mpr ⟨r, hr, by rw [hreq, heeq]⟩
      simp [this] at hdec
    · by_cases hc2 : table.length ≠ (allSampleIds peds).length
      · rw [if_pos hc2] at hmis
        exact Defect.noConfusion (List.mem_singleton.mp hmis)
      · rw [if_neg hc2] at hmis
        exact List.not_mem_nil _ hmis

def table6 : List MappingEntry :=
  [⟨"S1", "Alice", "B"⟩, ⟨"SX", "Bob", "B"⟩]

def peds6 : List (List PedRecord) :=
  [[⟨"S1", "F1", "0", "0", "1", "0", ["A", "A"]⟩]]

theorem unmapped_chip_defects_witness :
    ((table6.map MappingEntry.chip_id).Nodup ∧
      "SX" ∈ table6.map MappingEntry.chip_id ∧
      (∀ r ∈ allPed peds6, r.sample_id ≠ "SX") ∧
      (validate_data_integrity table6 peds6).count (Defect.UnmappedChip "SX") = 1) ∧
    ((∀ e ∈ [(⟨"S1", "Alice", "B"⟩ : MappingEntry)], ∃ r ∈ allPed peds6,
        r.sample_id = e.chip_id) ∧
      Defect.UnmappedChip "SX" ∉ validate_data_integrity [⟨"S1", "Alice", "B"⟩] peds6) :=
  ⟨⟨by decide, by decide, by decide,
    (unmapped_chip_defects table6 peds6 (by decide)).1 "SX" (by decide) (by decide)⟩,
   ⟨by decide,
    (unmapped_chip_defects [⟨"S1", "Alice", "B"⟩] peds6 (by decide)).2 (by decide) "SX"⟩⟩

lemma collectBreed_skip (peds : List (List PedRecord)) (e : MappingEntry)
    (hnone : findPed peds e.chip_id = none) (l1 l2 : List MappingEntry) :
    collectBreed peds (l1 ++ e :: l2) = collectBreed peds (l1 ++ l2) := by
  induction l1 with
  | nil =>
    simp only [List.nil_append, collectBreed, hnone]
  | cons a t ih =>
    simp only [List.cons_append, collectBreed, List.append_eq]
    rw [ih]

/-- Claim C10: `generate_breed_files` keeps the ped rows and the
id-mapping lines in one-to-one order correspondence (the i-th
translation line starts with the sample id of the i-th ped row), and a
group entry whose chip id matches no sample record is silently dropped
from both lists. -/
theorem idmap_ped_pairing (peds : List (List PedRecord))
    (entries : List MappingEntry) :
    ((collectBreed peds entries).1.length = (collectBreed peds entries).2.length) ∧
    (∀ (i : Nat) (h1 : i < (collectBreed peds entries).1.length)
       (h2 : i < (collectBreed peds entries).2.length),
      ∃ nm, (collectBreed peds entries).2[i] =
        ((collectBreed peds entries).1[i]).sample_id ++ "\t" ++ nm) ∧
    (∀ (l1 l2 : List MappingEntry) (e : MappingEntry),
      findPed peds e.chip_id = none →
      collectBreed peds (l1 ++ e :: l2) = collectBreed peds (l1 ++ l2)) := by
  refine ⟨?_, ?_, fun l1 l2 e h => collectBreed_skip peds e h l1 l2⟩
  · induction entries with
    | nil => rfl
    | cons e rest ih =>
      simp only [collectBreed]
      cases hf : findPed peds e.chip_id with
      | none => exact ih
      | some p => simpa using ih
  · induction entries with
    | nil =>
      intro i h1
      exact absurd h1 (by simp [collectBreed])
    | cons e rest ih =>
      intro i h1 h2
      rcases hf : findPed peds e.chip_id with _ | p
      · simp only [collectBreed, hf] at h1 h2 ⊢
        exact ih i h1 h2
      · have hf' : List.find? (fun r => r.sample_id == e.chip_id)
            (allPed peds) = some p := hf
        have hbeq := List.find?_some hf'
        have hsid : p.sample_id = e.chip_id := eq_of_beq hbeq
        simp only [collectBreed, hf] at h1 h2 ⊢
        cases i with
        | zero =>
          refine ⟨e.sample_name, ?_⟩
          simp [hsid]
        | succ j =>
          simp only [List.getElem_cons_succ]
          exact ih j (by simpa using h1) (by simpa using h2)

def entries10 : List MappingEntry :=
  [⟨"S1", "Alice", "B"⟩, ⟨"SX", "Bob", "B"⟩]

theorem idmap_ped_pairing_witness :
    ((collectBreed peds6 entries10).1.length =
        (collectBreed peds6 entries10).2.length) ∧
    (∃ nm, (collectBreed peds6 entries10).2[0] =
      ((collectBreed peds6 entries10).1[0]).sample_id ++ "\t" ++ nm) ∧
    (findPed peds6 (⟨"SX", "Bob", "B"⟩ : MappingEntry).chip_id = none ∧
      collectBreed peds6 ([⟨"S1", "Alice", "B"⟩] ++ [⟨"SX", "Bob", "B"⟩]) =
        collectBreed peds6 ([⟨"S1", "Alice", "B"⟩] ++ [])) :=
  ⟨(idmap_ped_pairing peds6 entries10).1,
   (idmap_ped_pairing peds6 entries10).2.1 0 (by decide) (by decide),
   ⟨by decide,
    (idmap_ped_pairing peds6 entries10).2.2 [⟨"S1", "Alice", "B"⟩] []
      ⟨"SX", "Bob", "B"⟩ (by decide)⟩⟩

lemma collectBreed_of_found (peds : List (List PedRecord)) :
    ∀ entries : List MappingEntry,
    (∀ e ∈ entries, ∃ r ∈ allPed peds, r.sample_id = e.chip_id) →
    ((collectBreed peds entries).1.map PedRecord.sample_id =
        entries.map MappingEntry.chip_id) ∧
    ((collectBreed peds entries).2 =
        entries.map (fun e => e.chip_id ++ "\t" ++ e.sample_name)) := by
  intro entries
  induction entries with
  | nil => intro _; exact ⟨rfl, rfl⟩
  | cons e rest ih =>
    intro hcov
    rcases hcov e (List.mem_cons_self e rest) with ⟨r, hr, hrid⟩
    have hsome : (findPed peds e.chip_id).isSome = true := by
      rw [findPed, List.find?_isSome]
      exact ⟨r, hr, beq_iff_eq.mpr hrid⟩
    rcases hf : findPed peds e.chip_id with _ | p
    · rw [hf] at hsome
      exact Bool.noConfusion hsome
    · have hf' : List.find? (fun x => x.sample_id == e.chip_id)
          (allPed peds) = some p := hf
      have hbeq := List.find?_some hf'
      have hsid : p.sample_id = e.chip_id := eq_of_beq hbeq
      have htail := ih (fun x hx => hcov x (List.mem_cons_of_mem e hx))
      simp only [collectBreed, hf, List.map_cons]
      exact ⟨by rw [hsid, htail.1], by rw [htail.2]⟩

/-- Claim C3: in every validated batch (here: every group chip id has a
matching sample record), each group's ped rows and id-mapping lines
follow the order of that group's entries in the mapping table: the
sample-id sequence of the output rows equals the chip-id sequence of the
group's entries. -/
theorem breed_output_order (table : List MappingEntry)
    (maps : List (List MapRecord)) (peds : List (List PedRecord))
    (outs : List BreedOutput)
    (hsplit : split_by_breed false table maps peds = some outs)
    (hcov : ∀ e ∈ table, ∃ r ∈ allPed peds, r.sample_id = e.chip_id) :
    ∀ o ∈ outs,
      o.pedRows.map PedRecord.sample_id =
        (groupEntries table o.breed).map MappingEntry.chip_id ∧
      o.idmapLines =
        (groupEntries table o.breed).map
          (fun e => e.chip_id ++ "\t" ++ e.sample_name) := by
  intro o ho
  have houts : outs = (breedsOf table).map (fun b =>
      generate_breed_files maps peds b (groupEntries table b)) :=
    (Option.some.inj (by simpa [split_by_breed] using hsplit)).symm
  rw [houts] at ho
  rcases List.mem_map.mp ho with ⟨b, -, rfl⟩
  have hcov' : ∀ e ∈ groupEntries table b, ∃ r ∈ allPed peds,
      r.sample_id = e.chip_id :=
    fun e he => hcov e (List.mem_filter.mp he).1
  have hc := collectBreed_of_found peds (groupEntries table b) hcov'
  exact ⟨hc.1, hc.2⟩

def ctbl : List MappingEntry :=
  [⟨"S1", "Alice", "BreedA"⟩, ⟨"S2", "Bob", "BreedA"⟩]

def cmaps : List (List MapRecord) :=
  [[⟨"M1", "1", "100", "0"⟩, ⟨"M2", "1", "200", "0"⟩, ⟨"M3", "1", "300", "0"⟩]]

def cpeds : List (List PedRecord) :=
  [[⟨"S1", "F1", "0", "0", "1", "0", ["A", "A", "G", "G", "C", "C"]⟩,
    ⟨"S2", "F2", "0", "0", "2", "0", ["A", "G", "G", "G", "C", "T"]⟩]]

def cout0 : BreedOutput :=
  generate_breed_files cmaps cpeds "BreedA" (groupEntries ctbl "BreedA")

theorem breed_output_order_witness :
    cout0.pedRows.map PedRecord.sample_id =
        (groupEntries ctbl cout0.breed).map MappingEntry.chip_id ∧
    cout0.idmapLines =
        (groupEntries ctbl cout0.breed).map
          (fun e => e.chip_id ++ "\t" ++ e.sample_name) :=
  breed_output_order ctbl cmaps cpeds [cout0] (by decide) (by decide)
    cout0 (by decide)

lemma splitTabAux_ne_nil (cs : List Char) : splitTabAux cs ≠ [] := by
  cases cs with
  | nil => simp [splitTabAux]
  | cons c rest =>
    simp only [splitTabAux]
    by_cases hc : c = '\t'
    · simp [hc]
    · rw [if_neg hc]
      rcases h : splitTabAux rest with _ | ⟨h1, t⟩ <;> simp

lemma joinTab_splitTabAux (cs : List Char) :
    joinTabChars (splitTabAux cs) = cs := by
  induction cs with
  | nil => rfl
  | cons c rest ih =>
    simp only [splitTabAux]
    by_cases hc : c = '\t'
    · rw [if_pos hc]
      rcases h : splitTabAux rest with _ | ⟨h1, t⟩
      · exact absurd h (splitTabAux_ne_nil rest)
      · rw [h] at ih
        simp only [joinTabChars, List.nil_append]
        rw [ih, hc]
    · rw [if_neg hc]
      rcases h : splitTabAux rest with _ | ⟨h1, t⟩
      · exact absurd h (splitTabAux_ne_nil rest)
      · rw [h] at ih
        cases t with
        | nil =>
          simp only [joinTabChars] at ih ⊢
          rw [ih]
        | cons t1 ts =>
          simp only [joinTabChars] at ih ⊢
          rw [List.cons_append, ih]

lemma emit_rowOfParts_roundtrip (line : String)
    (h : (splitTab line).length = 4) :
    emitMapLine (rowOfParts (splitTab line)) = line := by
  have hj := joinTab_splitTabAux line.data
  have hlen : (splitTabAux line.data).length = 4 := by
    simpa [splitTab] using h
  apply String.ext
  rcases s : splitTabAux line.data with _ | ⟨a, l1⟩
  · rw [s] at hlen; simp at hlen
  rcases l1 with _ | ⟨b, l2⟩
  · rw [s] at hlen; simp at hlen
  rcases l2 with _ | ⟨c2, l3⟩
  · rw [s] at hlen; simp at hlen
  rcases l3 with _ | ⟨d, l4⟩
  · rw [s] at hlen; simp at hlen
  rcases l4 with _ | ⟨x, l5⟩
  case cons.cons.cons.cons.cons =>
    rw [s] at hlen; simp at hlen
  rw [s] at hj
  have hsplit4 : splitTab line =
      [String.mk a, String.mk b, String.mk c2, String.mk d] := by
    simp [splitTab, s]
  rw [hsplit4]
  show (String.mk a ++ "\t" ++ String.mk b ++ "\t" ++ String.mk c2 ++ "\t"
      ++ String.mk d).data = line.data
  rw [← hj]
  simp only [joinTabChars, String.data_append]
  simp [List.append_assoc]

lemma map_go_all4 : ∀ raw : List String,
    (∀ l ∈ raw, (splitTab l).length = 4) →
    ∀ n, mapFileLines (load_map_go n raw).2 = raw := by
  intro raw
  induction raw with
  | nil => intro _ _; rfl
  | cons line rest ih =>
    intro hall n
    have h4 : (splitTab line).length = 4 := hall line (List.mem_cons_self _ _)
    have htail := ih (fun l hl => hall l (List.mem_cons_of_mem _ hl)) (n + 1)
    simp only [load_map_go]
    rw [if_neg (by omega)]
    simp only [mapFileLines, List.map_cons] at htail ⊢
    rw [emit_rowOfParts_roundtrip line h4, htail]

/-- Claim C7: every group's emitted marker file is built from the first
parsed marker file, and serialisation restores each parsed row's on-disk
field order (chromosome, marker id, genetic distance, position), so for
well-formed input the emitted marker lines are exactly the first marker
file's lines in order. -/
theorem breed_map_template (table : List MappingEntry)
    (maps : List (List MapRecord)) (peds : List (List PedRecord))
    (outs : List BreedOutput)
    (hsplit : split_by_breed false table maps peds = some outs) :
    (∀ o ∈ outs, o.mapLines = mapFileLines (maps.headD [])) ∧
    (∀ line, (splitTab line).length = 4 →
      emitMapLine (rowOfParts (splitTab line)) = line) ∧
    (∀ raw : List String, (∀ l ∈ raw, (splitTab l).length = 4) →
      mapFileLines (load_map_file raw).2 = raw) := by
  refine ⟨?_, fun line hl => emit_rowOfParts_roundtrip line hl,
    fun raw hr => map_go_all4 raw hr 1⟩
  intro o ho
  have houts : outs = (breedsOf table).map (fun b =>
      generate_breed_files maps peds b (groupEntries table b)) :=
    (Option.some.inj (by simpa [split_by_breed] using hsplit)).symm
  rw [houts] at ho
  rcases List.mem_map.mp ho with ⟨b, -, rfl⟩
  rfl

def crawMap : List String := ["1\tM1\t0\t100", "1\tM2\t0\t200", "1\tM3\t0\t300"]

theorem breed_map_template_witness :
    cout0.mapLines = mapFileLines (cmaps.headD []) ∧
    ((splitTab "1\tM1\t0\t100").length = 4 ∧
      emitMapLine (rowOfParts (splitTab "1\tM1\t0\t100")) = "1\tM1\t0\t100") ∧
    ((∀ l ∈ crawMap, (splitTab l).length = 4) ∧
      mapFileLines (load_map_file crawMap).2 = crawMap) :=
  ⟨(breed_map_template ctbl cmaps cpeds [cout0] (by decide)).1 cout0 (by decide),
   ⟨by decide,
    (breed_map_template ctbl cmaps cpeds [cout0] (by decide)).2.1
      "1\tM1\t0\t100" (by decide)⟩,
   ⟨by decide,
    (breed_map_template ctbl cmaps cpeds [cout0] (by decide)).2.2
      crawMap (by decide)⟩⟩

lemma collectBreed_fst (peds : List (List PedRecord)) :
    ∀ entries : List MappingEntry,
    (collectBreed peds entries).1 =
      entries.filterMap (fun e => findPed peds e.chip_id) := by
  intro entries
  induction entries with
  | nil => rfl
  | cons e rest ih =>
    simp only [collectBreed, List.filterMap_cons]
    cases hf : findPed peds e.chip_id with
    | none => exact ih
    | some p => simp [ih]

lemma sum_map_ite_eq_of_nodup (l : List String) (x : String) (v : Nat)
    (h : l.Nodup) :
    (l.map (fun b => if x = b then v else 0)).sum = if x ∈ l then v else 0 := by
  induction l with
  | nil => simp
  | cons a t ih =>
    rcases List.nodup_cons.mp h with ⟨ha, ht⟩
    simp only [List.map_cons, List.sum_cons]
    rw [ih ht]
    by_cases hx : x = a
    · subst hx
      rw [if_pos rfl, if_neg ha, if_pos (List.mem_cons_self x t)]
      omega
    · rw [if_neg hx]
      by_cases hxt : x ∈ t
      · rw [if_pos hxt, if_pos (List.mem_cons_of_mem a hxt)]
        omega
      · rw [if_neg hxt, if_neg (by simp [hx, hxt])]

lemma count_groupEntries (t : List MappingEntry) (b : String) (e : MappingEntry) :
    (groupEntries t b).count e = if e.breed = b then t.count e else 0 := by
  rw [groupEntries, count_filter_eq]
  by_cases hb : e.breed = b
  · rw [if_pos (beq_iff_eq.mpr hb), if_pos hb]
  · rw [if_neg (by simp [hb]), if_neg hb]

lemma groups_flatMap_perm (t : List MappingEntry) :
    ((breedsOf t).flatMap (fun b => groupEntries t b)).Perm t := by
  rw [List.perm_iff_count]
  intro e
  rw [List.count_flatMap]
  have hmapeq : (breedsOf t).map (List.count e ∘ fun b => groupEntries t b) =
      (breedsOf t).map (fun b => if e.breed = b then t.count e else 0) :=
    List.map_congr_left (fun b _ => count_groupEntries t b e)
  have hnd : (breedsOf t).Nodup := List.nodup_dedup _
  rw [hmapeq, sum_map_ite_eq_of_nodup _ _ _ hnd]
  by_cases he : e ∈ t
  · have hmem : e.breed ∈ breedsOf t :=
      List.mem_dedup.mpr (List.mem_map.mpr ⟨e, he, rfl⟩)
    rw [if_pos hmem]
  · rw [List.count_eq_zero.mpr he]
    simp

lemma flatMap_filterMap_comm (L : List String)
    (g : String → List MappingEntry) (f : MappingEntry → Option PedRecord) :
    L.flatMap (fun b => (g b).filterMap f) = (L.flatMap g).filterMap f := by
  induction L with
  | nil => rfl
  | cons b rest ih =>
    simp only [List.flatMap_cons, List.filterMap_append, ih]

lemma find?_eq_self_of_nodup (l : List PedRecord)
    (hnd : (l.map PedRecord.sample_id).Nodup) (r : PedRecord) (hr : r ∈ l) :
    l.find? (fun x => x.sample_id == r.sample_id) = some r := by
  induction l with
  | nil => cases hr
  | cons a t ih =>
    rw [List.map_cons] at hnd
    rcases List.nodup_cons.mp hnd with ⟨hna, ht⟩
    rcases List.mem_cons.mp hr with rfl | hr'
    · exact List.find?_cons_of_pos _ (beq_self_eq_true _)
    · have hne : ¬(a.sample_id == r.sample_id) = true := by
        intro hbeq
        exact hna (eq_of_beq hbeq ▸ List.mem_map.mpr ⟨r, hr', rfl⟩)
      have hstep : List.find? (fun x => x.sample_id == r.sample_id) (a :: t) =
          List.find? (fun x => x.sample_id == r.sample_id) t :=
        List.find?_cons_of_neg t hne
      rw [hstep]
      exact ih ht hr'

lemma table_lookup_perm (table : List MappingEntry) (peds : List (List PedRecord))
    (h1 : ((allPed peds).map PedRecord.sample_id).Nodup)
    (h2 : (table.map MappingEntry.chip_id).Nodup)
    (h3 : ∀ c, c ∈ table.map MappingEntry.chip_id ↔
      c ∈ (allPed peds).map PedRecord.sample_id) :
    (table.filterMap (fun e => findPed peds e.chip_id)).Perm (allPed peds) := by
  rw [List.perm_iff_count]
  intro r
  rw [List.count_filterMap]
  by_cases hr : r ∈ allPed peds
  · have hped_nd : (allPed peds).Nodup := List.Nodup.of_map _ h1
    rw [List.count_eq_one_of_mem hped_nd hr]
    have hcong : ∀ e ∈ table,
        ((findPed peds e.chip_id == some r) = true) ↔
        ((e.chip_id == r.sample_id) = true) := by
      intro e _
      constructor
      · intro hbeq
        have hfe : findPed peds e.chip_id = some r := eq_of_beq hbeq
        have hfe' : List.find? (fun x => x.sample_id == e.chip_id)
            (allPed peds) = some r := hfe
        have hpr := List.find?_some hfe'
        exact beq_iff_eq.mpr (eq_of_beq hpr).symm
      · intro hbeq
        have hce : e.chip_id = r.sample_id := eq_of_beq hbeq
        have hfe : findPed peds e.chip_id = some r := by
          rw [findPed, hce]
          exact find?_eq_self_of_nodup (allPed peds) h1 r hr
        exact beq_iff_eq.mpr hfe
    rw [List.countP_congr hcong]
    have hcp : table.countP (fun e => e.chip_id == r.sample_id) =
        (table.map MappingEntry.chip_id).count r.sample_id := by
      rw [List.count_eq_countP, List.countP_map]
      rfl
    rw [hcp]
    exact List.count_eq_one_of_mem h2
      ((h3 r.sample_id).mpr (List.mem_map.mpr ⟨r, hr, rfl⟩))
  · rw [List.count_eq_zero.mpr hr, List.countP_eq_zero.mpr]
    intro e _ hbeq
    have hfe : findPed peds e.chip_id = some r := eq_of_beq hbeq
    have hfe' : List.find? (fun x => x.sample_id == e.chip_id)
        (allPed peds) = some r := hfe
    exact absurd (List.mem_of_find?_eq_some hfe') hr

lemma countP_mem_of_flatten_count_one {α : Type} [DecidableEq α] :
    ∀ (L : List (List α)) (r : α), L.flatten.count r = 1 →
    L.countP (fun l => decide (r ∈ l)) = 1 := by
  intro L r
  induction L with
  | nil =>
    intro h
    simp at h
  | cons a t ih =>
    intro h
    rw [List.flatten_cons, List.count_append] at h
    rw [List.countP_cons]
    by_cases hm : r ∈ a
    · have h1 : 0 < a.count r := List.count_pos_iff.mpr hm
      have h3 : t.countP (fun l => decide (r ∈ l)) = 0 := by
        rw [List.countP_eq_zero]
        intro l hl hdec
        have hrl : r ∈ l := of_decide_eq_true hdec
        have : 0 < t.flatten.count r :=
          List.count_pos_iff.mpr (List.mem_flatten.mpr ⟨l, hl, hrl⟩)
        omega
      rw [h3, if_pos (decide_eq_true hm)]
    · have h0 : a.count r = 0 := List.count_eq_zero.mpr hm
      rw [if_neg (by simp [hm])]
      simp only [Nat.add_zero]
      exact ih (by omega)

/-- Claim C2: for a batch whose mapping-table chip ids are distinct and
exactly cover the distinct sample ids of the loaded records, the
partition runs and the ped rows emitted across all breed outputs are a
permutation of the input sample records, each input record appearing
exactly once overall and in exactly one breed's output. -/
theorem split_roundtrip_partition (table : List MappingEntry)
    (maps : List (List MapRecord)) (peds : List (List PedRecord))
    (h1 : ((allPed peds).map PedRecord.sample_id).Nodup)
    (h2 : (table.map MappingEntry.chip_id).Nodup)
    (h3 : table.map MappingEntry.chip_id ⊆ (allPed peds).map PedRecord.sample_id ∧
      (allPed peds).map PedRecord.sample_id ⊆ table.map MappingEntry.chip_id) :
    ∃ outs, split_by_breed false table maps peds = some outs ∧
      (outs.flatMap BreedOutput.pedRows).Perm (allPed peds) ∧
      ∀ r ∈ allPed peds,
        (outs.flatMap BreedOutput.pedRows).count r = 1 ∧
        outs.countP (fun o => decide (r ∈ o.pedRows)) = 1 := by
  have h3' : ∀ c, c ∈ table.map MappingEntry.chip_id ↔
      c ∈ (allPed peds).map PedRecord.sample_id :=
    fun c => ⟨fun hc => h3.1 hc, fun hc => h3.2 hc⟩
  refine ⟨(breedsOf table).map (fun b =>
    generate_breed_files maps peds b (groupEntries table b)), rfl, ?_, ?_⟩
  all_goals
    have hrows : ((breedsOf table).map (fun b =>
        generate_breed_files maps peds b (groupEntries table b))).flatMap
          BreedOutput.pedRows =
        ((breedsOf table).flatMap (fun b => groupEntries table b)).filterMap
          (fun e => findPed peds e.chip_id) := by
      rw [List.flatMap_map, ← flatMap_filterMap_comm]
      have hfun : (fun b => (generate_breed_files maps peds b
          (groupEntries table b)).pedRows) =
          (fun b => (groupEntries table b).filterMap
            (fun e => findPed peds e.chip_id)) := by
        funext b
        exact collectBreed_fst peds (groupEntries table b)
      rw [hfun]
    have hperm : (((breedsOf table).map (fun b =>
        generate_breed_files maps peds b (groupEntries table b))).flatMap
          BreedOutput.pedRows).Perm (allPed peds) := by
      rw [hrows]
      exact ((groups_flatMap_perm table).filterMap _).trans
        (table_lookup_perm table peds h1 h2 h3')
  · exact hperm
  · intro r hr
    have hped_nd : (allPed peds).Nodup := List.Nodup.of_map _ h1
    have hcnt : (((breedsOf table).map (fun b =>
        generate_breed_files maps peds b (groupEntries table b))).flatMap
          BreedOutput.pedRows).count r = 1 := by
      rw [List.perm_iff_count.mp hperm r]
      exact List.count_eq_one_of_mem hped_nd hr
    refine ⟨hcnt, ?_⟩
    have hmapP : (((breedsOf table).map (fun b =>
        generate_breed_files maps peds b (groupEntries table b))).countP
          (fun o => decide (r ∈ o.pedRows))) =
        ((((breedsOf table).map (fun b =>
          generate_breed_files maps peds b (groupEntries table b))).map
            BreedOutput.pedRows).countP (fun l => decide (r ∈ l))) := by
      rw [List.countP_map, List.map_map, List.countP_map]
      rfl
    rw [hmapP]
    apply countP_mem_of_flatten_count_one
    rw [← List.flatMap_def]
    exact hcnt

theorem split_roundtrip_partition_witness :
    (((allPed cpeds).map PedRecord.sample_id).Nodup ∧
      (ctbl.map MappingEntry.chip_id).Nodup ∧
      ctbl.map MappingEntry.chip_id ⊆ (allPed cpeds).map PedRecord.sample_id ∧
      (allPed cpeds).map PedRecord.sample_id ⊆ ctbl.map MappingEntry.chip_id) ∧
    ∃ outs, split_by_breed false ctbl cmaps cpeds = some outs ∧
      (outs.flatMap BreedOutput.pedRows).Perm (allPed cpeds) ∧
      ∀ r ∈ allPed cpeds,
        (outs.flatMap BreedOutput.pedRows).count r = 1 ∧
        outs.countP (fun o => decide (r ∈ o.pedRows)) = 1 :=
  ⟨⟨by decide, by decide, by decide, by decide⟩,
   split_roundtrip_partition ctbl cmaps cpeds (by decide) (by decide)
     ⟨by decide, by decide⟩⟩

end BreedSplit
